import Mathlib

/-!
Verification of the prtrack cache-first refresh and synchronization engine.

This file gives a shallow embedding of the core data model and operations of
the prtrack application (src/prtrack/storage.py, src/prtrack/tui.py,
src/prtrack/github.py, src/prtrack/utils/markdown.py) and proves properties
about them.  The SQLite `prs` table is modelled as a list of `PRRow`
(one entry per table row, in table order), the `metadata` table as an
association list, and the asynchronous fetch operations as explicit
`Except`-valued inputs.
-/

namespace PRTrack

/-- The `PullRequest` dataclass of src/prtrack/github.py: repo, number, title,
author, assignees, branch, draft, approvals, html_url and a `state` field that
defaults to "open". -/
structure PullRequest where
  repo : String
  number : Nat
  title : String
  author : String
  assignees : List String
  branch : String
  draft : Bool
  approvals : Nat
  html_url : String
  state : String := "open"
deriving Repr, DecidableEq

/-- The `filter_prs` function of src/prtrack/github.py: if `users` is empty
return all PRs, otherwise keep a PR iff its author is in `users` or any
assignee is in `users`.  The Python `set` argument is modelled as a list whose
membership is what matters. -/
def filter_prs (prs : List PullRequest) (users : List String) : List PullRequest :=
  if users.isEmpty then prs
  else prs.filter (fun pr => users.contains pr.author || pr.assignees.any (fun a => users.contains a))

/-- One row of the `prs` table as declared by `_SCHEMA` in
src/prtrack/storage.py: repo, number, title, author, assignees (stored as a
JSON array, modelled here by the list it encodes), branch, draft, approvals,
html_url and fetched_at.  Note the schema has no `state` column. -/
structure PRRow where
  repo : String
  number : Nat
  title : String
  author : String
  assignees : List String
  branch : String
  draft : Bool
  approvals : Nat
  html_url : String
  fetched_at : Nat
deriving Repr, DecidableEq

/-- Key equality on rows: the PRIMARY KEY (repo, number) of the `prs` table. -/
def rowKeyEq (a b : PRRow) : Bool := a.repo == b.repo && a.number == b.number

/-- The tuple built for one PR by `upsert_prs` in src/prtrack/storage.py
(the `rows` comprehension): all PullRequest attributes except `state`, plus
the shared fetched_at timestamp. -/
def prToRow (pr : PullRequest) (ts : Nat) : PRRow :=
  { repo := pr.repo, number := pr.number, title := pr.title, author := pr.author,
    assignees := pr.assignees, branch := pr.branch, draft := pr.draft,
    approvals := pr.approvals, html_url := pr.html_url, fetched_at := ts }

/-- Effect of one `INSERT ... ON CONFLICT(repo, number) DO UPDATE SET ...`
statement of `upsert_prs`: if a row with the same (repo, number) key exists it
is updated in place (every non-key column is set from the excluded row, which
together with the equal key amounts to replacing the row), otherwise the row
is appended. -/
def upsertOne (cache : List PRRow) (row : PRRow) : List PRRow :=
  if cache.any (fun r => rowKeyEq r row) then
    cache.map (fun r => if rowKeyEq r row then row else r)
  else cache ++ [row]

/-- The `upsert_prs` function of src/prtrack/storage.py: convert each PR to a
row tagged with the single timestamp `ts` and execute the upsert statement for
each in order (`executemany`).  On an empty input nothing is written. -/
def upsert_prs (cache : List PRRow) (prs : List PullRequest) (ts : Nat) : List PRRow :=
  prs.foldl (fun c pr => upsertOne c (prToRow pr ts)) cache

/-- The `_row_to_pr` function of src/prtrack/storage.py: rebuild a
`PullRequest` from a row.  No `state` column exists, so the dataclass default
"open" applies to every row read back. -/
def row_to_pr (r : PRRow) : PullRequest :=
  { repo := r.repo, number := r.number, title := r.title, author := r.author,
    assignees := r.assignees, branch := r.branch, draft := r.draft,
    approvals := r.approvals, html_url := r.html_url, state := "open" }

/-- Point lookup of the row with a given (repo, number) primary key. -/
def lookupRow (cache : List PRRow) (repo : String) (number : Nat) : Option PRRow :=
  cache.find? (fun r => r.repo == repo && r.number == number)

/-- Ordering relation used by every cache query: `ORDER BY number DESC`. -/
def rowNumDescRel (a b : PRRow) : Prop := b.number ≤ a.number

instance : DecidableRel rowNumDescRel := fun a b => Nat.decLe b.number a.number

instance : IsTotal PRRow rowNumDescRel := ⟨fun a b => Nat.le_total b.number a.number⟩

instance : IsTrans PRRow rowNumDescRel := ⟨fun _ _ _ hab hbc => Nat.le_trans hbc hab⟩

/-- The same descending-number relation on `PullRequest`, used by the
`list.sort(key=lambda p: p.number, reverse=True)` calls of src/prtrack/tui.py.
Python's sort is stable, which `List.insertionSort` with this reflexive
relation reproduces (ties keep their original order). -/
def prNumDescRel (a b : PullRequest) : Prop := b.number ≤ a.number

instance : DecidableRel prNumDescRel := fun a b => Nat.decLe b.number a.number

instance : IsTotal PullRequest prNumDescRel := ⟨fun a b => Nat.le_total b.number a.number⟩

instance : IsTrans PullRequest prNumDescRel := ⟨fun _ _ _ hab hbc => Nat.le_trans hbc hab⟩

/-- The `get_cached_prs_by_repo` query of src/prtrack/storage.py:
`SELECT * FROM prs WHERE repo = ? ORDER BY number DESC` mapped through
`_row_to_pr`. -/
def get_cached_prs_by_repo (cache : List PRRow) (repo_name : String) : List PullRequest :=
  (List.insertionSort rowNumDescRel (cache.filter (fun r => r.repo == repo_name))).map row_to_pr

/-- The `get_cached_all_prs` query of src/prtrack/storage.py:
`SELECT * FROM prs ORDER BY number DESC` mapped through `_row_to_pr`. -/
def get_cached_all_prs (cache : List PRRow) : List PullRequest :=
  (List.insertionSort rowNumDescRel cache).map row_to_pr

/-- Key used in the `metadata` table for a refresh scope, as in
`record_last_refresh` of src/prtrack/storage.py. -/
def metaKey (scope : String) : String := "last_refresh:" ++ scope

/-- The `record_last_refresh` function of src/prtrack/storage.py:
`REPLACE INTO metadata(key, value)` with key `last_refresh:<scope>`.  The
metadata table is an association list from key to the stored integer value
(timestamps are stored as strings of the integer; the string round-trip is
the identity on the integer, so the value is modelled as the integer). -/
def record_last_refresh (meta : List (String × Int)) (scope : String) (ts : Int) :
    List (String × Int) :=
  meta.filter (fun kv => kv.1 ≠ metaKey scope) ++ [(metaKey scope, ts)]

/-- The `get_last_refresh` function of src/prtrack/storage.py:
`SELECT value FROM metadata WHERE key = ?` for key `last_refresh:<scope>`. -/
def get_last_refresh (meta : List (String × Int)) (scope : String) : Option Int :=
  (meta.find? (fun kv => kv.1 == metaKey scope)).map (fun kv => kv.2)

/-- The `PRTrackApp._is_stale` method of src/prtrack/tui.py: stale when no
timestamp is recorded, or when `now - last` is strictly greater than the
configured threshold `_stale_after_seconds`. -/
def is_stale (meta : List (String × Int)) (scope : String) (now threshold : Int) : Bool :=
  match get_last_refresh meta scope with
  | none => true
  | some last => now - last > threshold

/-- ASCII lower-casing of a single character, as SQLite's `LIKE` operator
applies to both operands by default (only the 26 ASCII uppercase letters fold;
all other characters compare binary). -/
def asciiLower (c : Char) : Char :=
  match c with
  | 'A' => 'a' | 'B' => 'b' | 'C' => 'c' | 'D' => 'd' | 'E' => 'e' | 'F' => 'f'
  | 'G' => 'g' | 'H' => 'h' | 'I' => 'i' | 'J' => 'j' | 'K' => 'k' | 'L' => 'l'
  | 'M' => 'm' | 'N' => 'n' | 'O' => 'o' | 'P' => 'p' | 'Q' => 'q' | 'R' => 'r'
  | 'S' => 's' | 'T' => 't' | 'U' => 'u' | 'V' => 'v' | 'W' => 'w' | 'X' => 'x'
  | 'Y' => 'y' | 'Z' => 'z'
  | other => other

/-- SQLite `LIKE` matching (no ESCAPE clause): `%` matches any sequence,
`_` matches any single character, and ordinary characters compare after ASCII
case folding. -/
def likeMatch : List Char → List Char → Bool
  | [], [] => true
  | [], _ :: _ => false
  | p :: pr, [] => if p = '%' then likeMatch pr [] else false
  | p :: pr, c :: cr =>
    if p = '%' then likeMatch pr (c :: cr) || likeMatch (p :: pr) cr
    else if p = '_' then likeMatch pr cr
    else (asciiLower p == asciiLower c) && likeMatch pr cr
termination_by ps cs => (ps.length, cs.length)

/-- JSON string escaping of one character as performed by `json.dumps` on the
characters that can occur in the strings this program stores (quote and
backslash; control characters, which `json.dumps` also escapes, cannot occur
in GitHub logins and are not treated). -/
def jsonEscapeChar (c : Char) : List Char :=
  if c = '"' ∨ c = '\\' then ['\\', c] else [c]

/-- JSON string escaping of a whole string. -/
def jsonEscape (s : List Char) : List Char :=
  s.foldr (fun c acc => jsonEscapeChar c ++ acc) []

/-- The comma-separated quoted items of `json.dumps` applied to a list of
strings (separator ", "). -/
def jsonItems : List (List Char) → List Char
  | [] => []
  | [a] => '"' :: (jsonEscape a ++ ['"'])
  | a :: b :: rest => '"' :: (jsonEscape a ++ '"' :: ',' :: ' ' :: jsonItems (b :: rest))

/-- `json.dumps` applied to a list of strings: the stored text of the
`assignees` column written by `upsert_prs`. -/
def jsonDumpChars (as : List (List Char)) : List Char :=
  '[' :: (jsonItems as ++ [']'])

/-- The LIKE pattern `%"<account>"%` built by `get_cached_prs_by_account` in
src/prtrack/storage.py (the Python f-string f-quote pattern). -/
def likePatternChars (account : List Char) : List Char :=
  '%' :: '"' :: (account ++ ['"', '%'])

/-- The WHERE clause of `get_cached_prs_by_account`:
`author = ? OR assignees LIKE ?` with the quoted-account pattern applied to
the stored JSON text of the assignees column. -/
def accountMatchRow (account : String) (r : PRRow) : Bool :=
  r.author == account ||
    likeMatch (likePatternChars account.data) (jsonDumpChars (r.assignees.map String.data))

/-- The `get_cached_prs_by_account` query of src/prtrack/storage.py:
`SELECT * FROM prs WHERE author = ? OR assignees LIKE ? ORDER BY number DESC`
mapped through `_row_to_pr`. -/
def get_cached_prs_by_account (cache : List PRRow) (account : String) : List PullRequest :=
  (List.insertionSort rowNumDescRel (cache.filter (accountMatchRow account))).map row_to_pr

/-- Whole-row deletion by primary key: `DELETE FROM prs WHERE repo = ? AND
number = ?`. -/
def deleteByKey (cache : List PRRow) (repo : String) (number : Nat) : List PRRow :=
  cache.filter (fun r => !(r.repo == repo && r.number == number))

/-- The `else` branch of `delete_prs_by_account` in src/prtrack/storage.py:
delete all rows authored by the account, then select all remaining rows and
delete, by primary key, each row whose parsed assignee list contains the
account. -/
def delete_by_account_global (cache : List PRRow) (account : String) : List PRRow :=
  let c1 := cache.filter (fun r => !(r.author == account))
  let dels := c1.filter (fun r => r.assignees.contains account)
  dels.foldl (fun c d => deleteByKey c d.repo d.number) c1

/-- The repository-scoped branch of `delete_prs_by_account` in
src/prtrack/storage.py: delete the repository's rows authored by the account,
then select that repository's remaining rows and delete, by primary key, each
row whose parsed assignee list contains the account. -/
def delete_by_account_scoped (cache : List PRRow) (account rn : String) : List PRRow :=
  let c1 := cache.filter (fun r => !(r.repo == rn && r.author == account))
  let dels := (c1.filter (fun r => r.repo == rn)).filter
    (fun r => r.assignees.contains account)
  dels.foldl (fun c d => deleteByKey c d.repo d.number) c1

/-- The `delete_prs_by_account` function of src/prtrack/storage.py.  Python's
`if repo_name:` treats both `None` and the empty string as "no repository
scope", so the scoped branch runs only for a non-empty repository name. -/
def delete_prs_by_account (cache : List PRRow) (account : String)
    (repo_name : Option String) : List PRRow :=
  match repo_name with
  | some rn =>
    if rn = "" then delete_by_account_global cache account
    else delete_by_account_scoped cache account rn
  | none => delete_by_account_global cache account

/-- Plain (case-sensitive) list-prefix test, used to characterise `likeMatch`. -/
def startsWithPlain : List Char → List Char → Bool
  | [], _ => true
  | _ :: _, [] => false
  | p :: pr, c :: cr => (p == c) && startsWithPlain pr cr

/-- Plain contiguous-subsequence occurrence test. -/
def containsPlain (w : List Char) : List Char → Bool
  | [] => startsWithPlain w []
  | c :: cr => startsWithPlain w (c :: cr) || containsPlain w cr

/-- Case-folded list-prefix test: both sides compared through `asciiLower`. -/
def startsWithFold : List Char → List Char → Bool
  | [], _ => true
  | _ :: _, [] => false
  | p :: pr, c :: cr => (asciiLower p == asciiLower c) && startsWithFold pr cr

/-- Case-folded contiguous-subsequence occurrence test. -/
def containsSeqFold (w : List Char) : List Char → Bool
  | [] => startsWithFold w []
  | c :: cr => startsWithFold w (c :: cr) || containsSeqFold w cr

/-- Characters of the GitHub username alphabet: ASCII letters, digits and
hyphen.  Logins and assignee logins are made of these. -/
def safeChar (c : Char) : Bool := c.isAlpha || c.isDigit || c == '-'

/-- The quoted items of a JSON array without escaping, the shape `jsonItems`
takes on quote-free and backslash-free strings. -/
def plainItems : List (List Char) → List Char
  | [] => []
  | [a] => '"' :: (a ++ ['"'])
  | a :: b :: rest => '"' :: (a ++ '"' :: ',' :: ' ' :: plainItems (b :: rest))

/-- The `RepoConfig` dataclass of src/prtrack/config.py: repository name and
optional explicit user list. -/
structure RepoConfig where
  name : String
  users : Option (List String) := none
deriving Repr, DecidableEq

/-- The parts of `AppConfig` (src/prtrack/config.py) consumed by the refresh
paths: the global user list and the repository list. -/
structure AppConfig where
  global_users : List String := []
  repositories : List RepoConfig := []
deriving Repr, DecidableEq

/-- The user set a repository contributes under in `_load_all_prs` of
src/prtrack/tui.py: `set(rc.users or []) or global_users`. -/
def effectiveUsers (rc : RepoConfig) (globalUsers : List String) : List String :=
  if (rc.users.getD []).isEmpty then globalUsers else rc.users.getD []

/-- One repository's contribution inside `_load_all_prs` of src/prtrack/tui.py:
repositories whose name has no "/" are skipped (`ValueError` on unpacking the
split), failed fetches are skipped (`isinstance(result, Exception)`), and a
successful fetch is filtered through `filter_prs` when the effective user set
is non-empty (`if users:`). -/
def repoContrib (globalUsers : List String)
    (fetch : String → Except Unit (List PullRequest)) (rc : RepoConfig) : List PullRequest :=
  if rc.name.data.contains '/' then
    match fetch rc.name with
    | .error _ => []
    | .ok prs =>
      let users := effectiveUsers rc globalUsers
      if users.isEmpty then prs else filter_prs prs users
  else []

/-- The `_load_all_prs` coroutine of src/prtrack/tui.py: collect every
repository's filtered contribution in configuration order, then sort by
descending PR number (Python's stable sort). -/
def load_all_prs (cfg : AppConfig) (fetch : String → Except Unit (List PullRequest)) :
    List PullRequest :=
  List.insertionSort prNumDescRel ((cfg.repositories.map (repoContrib cfg.global_users fetch)).flatten)

/-- The cache write performed by the `runner` of `_schedule_refresh_all` in
src/prtrack/tui.py: `storage.upsert_prs(prs)` on the result of
`_load_all_prs`. -/
def refresh_all_write (cache : List PRRow) (cfg : AppConfig)
    (fetch : String → Except Unit (List PullRequest)) (ts : Nat) : List PRRow :=
  upsert_prs cache (load_all_prs cfg fetch) ts

/-- The user set of `_load_prs_by_repo` in src/prtrack/tui.py:
`set(next((r.users or [] for r in repositories if r.name == repo_name), []))
or set(global_users)` — the first matching repository's list when non-empty,
else the global list. -/
def repoScopeUsers (cfg : AppConfig) (repo_name : String) : List String :=
  let ru := match cfg.repositories.find? (fun rc => rc.name == repo_name) with
    | some rc => rc.users.getD []
    | none => []
  if ru.isEmpty then cfg.global_users else ru

/-- The `_load_prs_by_repo` coroutine of src/prtrack/tui.py: an invalid name
(no "/") yields `[]`; a fetch error propagates (`Except.error`); otherwise the
fetched list is filtered when the user set is non-empty and sorted by
descending number. -/
def load_prs_by_repo (cfg : AppConfig) (repo_name : String)
    (fetch : String → Except Unit (List PullRequest)) : Except Unit (List PullRequest) :=
  if repo_name.data.contains '/' then
    match fetch repo_name with
    | .error e => .error e
    | .ok prs =>
      let users := repoScopeUsers cfg repo_name
      let prs := if users.isEmpty then prs else filter_prs prs users
      .ok (List.insertionSort prNumDescRel prs)
  else .ok []

/-- The cache write performed by the `runner` of `_schedule_refresh_repo` in
src/prtrack/tui.py: `storage.upsert_prs(prs)` on the result of
`_load_prs_by_repo`; a fetch exception escapes the task before any write, so
the cache is left unchanged. -/
def refresh_repo_write (cache : List PRRow) (cfg : AppConfig) (repo_name : String)
    (fetch : String → Except Unit (List PullRequest)) (ts : Nat) : List PRRow :=
  match load_prs_by_repo cfg repo_name fetch with
  | .error _ => cache
  | .ok prs => upsert_prs cache prs ts

/-- The JSON object returned by the single-PR endpoint, with the fields
`_load_single_pr` of src/prtrack/tui.py reads (plus the `state` field the
response carries but the code never reads). -/
structure SinglePRData where
  number : Nat
  title : String
  user_login : String
  assignee_logins : List String
  head_ref : String
  draft : Bool
  html_url : String
  state : String
deriving Repr, DecidableEq

/-- The `_load_single_pr` coroutine of src/prtrack/tui.py: on any fetch or
approval-count error return `None`; otherwise build a `PullRequest` from the
response fields — the constructor is given no `state` argument, so the
dataclass default "open" applies regardless of the fetched state — and set
its approvals from the secondary reviews request. -/
def load_single_pr (owner repo : String) (fetch : Except Unit SinglePRData)
    (approvalsFetch : Except Unit Nat) : Option PullRequest :=
  match fetch with
  | .error _ => none
  | .ok d =>
    match approvalsFetch with
    | .error _ => none
    | .ok k =>
      some { repo := owner ++ "/" ++ repo, number := d.number, title := d.title,
             author := d.user_login, assignees := d.assignee_logins,
             branch := d.head_ref, draft := d.draft, approvals := k,
             html_url := d.html_url }

/-- Split a string at its first occurrence of a character, as Python's
`split(c, 1)` produces when the character occurs. -/
def splitCharOnce (c : Char) : List Char → Option (List Char × List Char)
  | [] => none
  | x :: xs =>
    if x = c then some ([], xs)
    else (splitCharOnce c xs).map (fun p => (x :: p.1, p.2))

/-- The cache write performed by the `runner` of `_schedule_refresh_single_pr`
in src/prtrack/tui.py: split the repo name (a `ValueError` returns without
writing), load the single PR, and when a `PullRequest` comes back upsert that
one row; when `None` comes back nothing at all is written — in particular no
row is ever deleted on this path. -/
def refresh_single_pr_write (cache : List PRRow) (prRepo : String)
    (fetch : Except Unit SinglePRData) (approvalsFetch : Except Unit Nat) (ts : Nat) :
    List PRRow :=
  match splitCharOnce '/' prRepo.data with
  | none => cache
  | some (ownerCs, repoCs) =>
    match load_single_pr (String.mk ownerCs) (String.mk repoCs) fetch approvalsFetch with
    | some pr => upsert_prs cache [pr] ts
    | none => cache

/-- The refresh queue of `StorageManager` in src/prtrack/storage.py: a dict
from scope string to the scheduled task, modelled as an association list with
distinct keys; tasks are identified by numeric ids. -/
def smLookup (queue : List (String × Nat)) (scope : String) : Option Nat :=
  (queue.find? (fun e => e.1 == scope)).map (fun e => e.2)

/-- The tasks `StorageManager.schedule_refresh` cancels: the queue entry for
the given scope when present (`self._refresh_queue[scope].cancel()`). -/
def smCancelled (queue : List (String × Nat)) (scope : String) : List Nat :=
  (queue.filter (fun e => e.1 == scope)).map (fun e => e.2)

/-- The queue after `StorageManager.schedule_refresh`: the entry for the given
scope is replaced by the newly created task
(`self._refresh_queue[scope] = task`). -/
def smSchedule (queue : List (String × Nat)) (scope : String) (tid : Nat) :
    List (String × Nat) :=
  queue.filter (fun e => e.1 ≠ scope) ++ [(scope, tid)]

/-- The TUI app's refresh tracking (src/prtrack/tui.py): a single
`_refresh_task` handle, modelled as an optional (scope, task id) pair; every
`_schedule_refresh_*` method first calls `_cancel_existing_refresh`, which
cancels whatever task is in flight regardless of its scope, then stores the
new task.  Returns the new state and the list of cancelled task ids. -/
def appScheduleRefresh (current : Option (String × Nat)) (scope : String) (tid : Nat) :
    Option (String × Nat) × List Nat :=
  (some (scope, tid),
   match current with
   | some st => [st.2]
   | none => [])

/-- The merged multi-repository view built by `_show_cached_all` and the
`_schedule_refresh_all` runner in src/prtrack/tui.py: extend one list per
repository in configuration order, then `sort(key=lambda p: p.number,
reverse=True)` — a stable descending sort on the PR number alone. -/
def mergeAndSortTUI (lists : List (List PullRequest)) : List PullRequest :=
  List.insertionSort prNumDescRel lists.flatten

/-- Lexicographic strict comparison of character lists by code point, the
order Python uses on strings. -/
def charListLt : List Char → List Char → Bool
  | [], [] => false
  | [], _ :: _ => true
  | _ :: _, [] => false
  | a :: as, b :: bs =>
    if a.toNat < b.toNat then true
    else if b.toNat < a.toNat then false
    else charListLt as bs

/-- Strict string comparison by code point, Python's `<` on strings. -/
def strLt (a b : String) : Bool := charListLt a.data b.data

/-- Modelled from the spec for comparison (`merge_and_sort` in section 4.3 as
constrained by the claim): concatenate, then sort by PR number descending with
ties on equal numbers broken by repository name. -/
def spec_merge_and_sort (lists : List (List PullRequest)) : List PullRequest :=
  List.insertionSort
    (fun a b => b.number < a.number ∨
      (a.number = b.number ∧ (strLt a.repo b.repo || a.repo == b.repo) = true))
    lists.flatten

/-- The ordering used by `write_prs_markdown` in src/prtrack/utils/markdown.py:
`prs_list.sort(key=lambda p: (p.repo, p.number))` — ascending lexicographic on
the (repo, number) pair, with Python's string order on the repo. -/
def mdRel (a b : PullRequest) : Prop :=
  strLt a.repo b.repo = true ∨ (a.repo = b.repo ∧ a.number ≤ b.number)

instance : DecidableRel mdRel := fun a b => by
  unfold mdRel; infer_instance

/-- The sorting step of `write_prs_markdown` in src/prtrack/utils/markdown.py
(the rendering of each line does not reorder). -/
def markdown_sort (prs : List PullRequest) : List PullRequest :=
  List.insertionSort mdRel prs

/-- The primary key of a cached row. -/
def rowKey (r : PRRow) : String × Nat := (r.repo, r.number)

/-- The identity of a pull request, matching the cached row primary key. -/
def prKey (p : PullRequest) : String × Nat := (p.repo, p.number)

/-- Sample pull request used in concrete instances. -/
def prA : PullRequest :=
  { repo := "o/r", number := 1, title := "t1", author := "alice", assignees := ["bob"],
    branch := "b1", draft := false, approvals := 0, html_url := "u1" }

/-- Second sample pull request, different key. -/
def prB : PullRequest :=
  { repo := "o/r", number := 2, title := "t2", author := "bob", assignees := [],
    branch := "b2", draft := true, approvals := 1, html_url := "u2" }

/-- Sample pull request in a merged state, for the persistence round trip. -/
def prMerged : PullRequest :=
  { repo := "o/r", number := 3, title := "t3", author := "carol", assignees := [],
    branch := "b3", draft := false, approvals := 2, html_url := "u3", state := "merged" }

/-- Cached row for `prA` written at time 5. -/
def rowA : PRRow := prToRow prA 5

/-- Cached row for `prB` written at time 5. -/
def rowB : PRRow := prToRow prB 5

/-- Cached row whose assignee list contains a capitalised login, for the
account-query case-sensitivity instance. -/
def rowUpperAssignee : PRRow :=
  { repo := "o/r", number := 9, title := "t9", author := "alice", assignees := ["Bob"],
    branch := "b9", draft := false, approvals := 0, html_url := "u9", fetched_at := 5 }

/-- The cached PR of the closed-PR refresh scenario: (o/r, 42) with one
approval. -/
def pr42 : PullRequest :=
  { repo := "o/r", number := 42, title := "t42", author := "dave", assignees := [],
    branch := "b42", draft := false, approvals := 1, html_url := "u42" }

/-- The single-PR endpoint response reporting (o/r, 42) as closed. -/
def closed42 : SinglePRData :=
  { number := 42, title := "t42", user_login := "dave", assignee_logins := [],
    head_ref := "b42", draft := false, html_url := "u42", state := "closed" }

/-- Tied-number pull request in repository "b/r", listed first. -/
def prTieB : PullRequest :=
  { repo := "b/r", number := 5, title := "tb", author := "bob", assignees := [],
    branch := "bb", draft := false, approvals := 0, html_url := "ub" }

/-- Tied-number pull request in repository "a/r", listed second. -/
def prTieA : PullRequest :=
  { repo := "a/r", number := 5, title := "ta", author := "alice", assignees := [],
    branch := "ba", draft := false, approvals := 0, html_url := "ua" }

theorem rowKeyEq_iff {a b : PRRow} :
    rowKeyEq a b = true ↔ a.repo = b.repo ∧ a.number = b.number := by
  simp [rowKeyEq]

theorem filter_repo_map_replace (cache : List PRRow) (row : PRRow) (name : String)
    (h : row.repo ≠ name) :
    (cache.map (fun r => if rowKeyEq r row then row else r)).filter
        (fun r => r.repo == name) =
      cache.filter (fun r => r.repo == name) := by
  induction cache with
  | nil => rfl
  | cons a l ih =>
    by_cases hk : rowKeyEq a row = true
    · have ha : a.repo = row.repo := (rowKeyEq_iff.mp hk).1
      simp [List.filter_cons, hk, ha, h, ih]
    · simp only [List.map_cons, List.filter_cons, hk]
      simp [ih]

theorem upsertOne_filter_repo_ne (cache : List PRRow) (row : PRRow) (name : String)
    (h : row.repo ≠ name) :
    (upsertOne cache row).filter (fun r => r.repo == name) =
      cache.filter (fun r => r.repo == name) := by
  unfold upsertOne
  split
  · exact filter_repo_map_replace cache row name h
  · simp [List.filter_append, h]

theorem upsert_prs_filter_repo_ne (prs : List PullRequest) (cache : List PRRow)
    (name : String) (ts : Nat) (h : ∀ p ∈ prs, p.repo ≠ name) :
    (upsert_prs cache prs ts).filter (fun r => r.repo == name) =
      cache.filter (fun r => r.repo == name) := by
  induction prs generalizing cache with
  | nil => rfl
  | cons p l ih =>
    have hstep : upsert_prs cache (p :: l) ts =
        upsert_prs (upsertOne cache (prToRow p ts)) l ts := rfl
    rw [hstep, ih _ (fun q hq => h q (List.mem_cons_of_mem _ hq)),
      upsertOne_filter_repo_ne _ _ _ (h p (List.mem_cons_self _ _))]

theorem mem_upsertOne_self (cache : List PRRow) (row : PRRow) : row ∈ upsertOne cache row := by
  unfold upsertOne
  split
  · rename_i hany
    rw [List.any_eq_true] at hany
    obtain ⟨r, hr, hkey⟩ := hany
    exact List.mem_map.mpr ⟨r, hr, by simp [hkey]⟩
  · simp

theorem mem_upsertOne_of_ne (cache : List PRRow) (row r : PRRow) (hr : r ∈ cache)
    (hne : rowKeyEq r row = false) : r ∈ upsertOne cache row := by
  unfold upsertOne
  split
  · exact List.mem_map.mpr ⟨r, hr, by simp [hne]⟩
  · exact List.mem_append_left _ hr

theorem mem_upsert_prs_of_no_key (prs : List PullRequest) (cache : List PRRow) (ts : Nat)
    (r : PRRow) (hr : r ∈ cache) (h : ∀ p ∈ prs, prKey p ≠ rowKey r) :
    r ∈ upsert_prs cache prs ts := by
  induction prs generalizing cache with
  | nil => exact hr
  | cons p l ih =>
    refine ih (upsertOne cache (prToRow p ts))
      (mem_upsertOne_of_ne _ _ _ hr ?_) (fun q hq => h q (List.mem_cons_of_mem _ hq))
    have hp := h p (List.mem_cons_self _ _)
    rw [Bool.eq_false_iff]
    intro hcontra
    obtain ⟨h1, h2⟩ := rowKeyEq_iff.mp hcontra
    exact hp (by simp [prKey, rowKey, prToRow] at h1 h2 ⊢; exact ⟨h1.symm, h2.symm⟩)

theorem key_surv_upsertOne (cache : List PRRow) (row : PRRow) (k : String × Nat)
    (h : ∃ r ∈ cache, rowKey r = k) : ∃ r ∈ upsertOne cache row, rowKey r = k := by
  obtain ⟨r, hr, hk⟩ := h
  by_cases hkey : rowKeyEq r row = true
  · refine ⟨row, mem_upsertOne_self cache row, ?_⟩
    obtain ⟨h1, h2⟩ := rowKeyEq_iff.mp hkey
    rw [← hk]
    simp [rowKey, h1, h2]
  · exact ⟨r, mem_upsertOne_of_ne _ _ _ hr (Bool.eq_false_iff.mpr hkey), hk⟩

theorem key_surv_upsert_prs (prs : List PullRequest) (cache : List PRRow) (ts : Nat)
    (k : String × Nat) (h : ∃ r ∈ cache, rowKey r = k) :
    ∃ r ∈ upsert_prs cache prs ts, rowKey r = k := by
  induction prs generalizing cache with
  | nil => exact h
  | cons p l ih => exact ih _ (key_surv_upsertOne _ _ _ h)

theorem mem_upsert_prs_of_mem_batch (prs : List PullRequest) (cache : List PRRow) (ts : Nat)
    (p : PullRequest) (hp : p ∈ prs)
    (huniq : ∀ q ∈ prs, prKey q = prKey p → q = p) :
    prToRow p ts ∈ upsert_prs cache prs ts := by
  induction prs generalizing cache with
  | nil => cases hp
  | cons b l ih =>
    by_cases hpl : p ∈ l
    · exact ih _ hpl (fun q hq hqk => huniq q (List.mem_cons_of_mem _ hq) hqk)
    · have hpb : p = b := by
        rcases List.mem_cons.mp hp with h | h
        · exact h
        · exact absurd h hpl
      subst hpb
      refine mem_upsert_prs_of_no_key l _ ts _ (mem_upsertOne_self _ _) ?_
      intro q hq hqk
      have hq' : q = p := by
        refine huniq q (List.mem_cons_of_mem _ hq) ?_
        simpa [rowKey, prToRow, prKey] using hqk
      exact hpl (hq' ▸ hq)

/-- C3: `upsert_prs` never deletes a row: every (repo, number) key cached
before the call is still present afterwards, rows whose key does not occur in
the input are left exactly as they were, and the empty input writes nothing. -/
theorem c3_upsert_never_deletes (cache : List PRRow) (prs : List PullRequest) (ts : Nat) :
    (∀ r ∈ cache, ∃ r' ∈ upsert_prs cache prs ts, rowKey r' = rowKey r) ∧
    (∀ r ∈ cache, (∀ p ∈ prs, prKey p ≠ rowKey r) → r ∈ upsert_prs cache prs ts) ∧
    upsert_prs cache [] ts = cache :=
  ⟨fun r hr => key_surv_upsert_prs prs cache ts (rowKey r) ⟨r, hr, rfl⟩,
   fun r hr h => mem_upsert_prs_of_no_key prs cache ts r hr h,
   rfl⟩

theorem c3_upsert_never_deletes_witness :
    rowA ∈ upsert_prs [rowA] [prB] 7 :=
  (c3_upsert_never_deletes [rowA] [prB] 7).2.1 rowA (by decide)
    (by intro p hp; fin_cases hp; decide)

theorem lookupRow_map_replace (cache : List PRRow) (row : PRRow)
    (h : ∃ r ∈ cache, rowKeyEq r row = true) :
    lookupRow (cache.map (fun r => if rowKeyEq r row then row else r))
      row.repo row.number = some row := by
  induction cache with
  | nil => simp at h
  | cons a l ih =>
    by_cases hk : rowKeyEq a row = true
    · simp [lookupRow, List.find?, hk]
    · have h' : ∃ r ∈ l, rowKeyEq r row = true := by
        obtain ⟨r, hr, hkr⟩ := h
        rcases List.mem_cons.mp hr with rfl | hrl
        · exact absurd hkr hk
        · exact ⟨r, hrl, hkr⟩
      have hcond : (a.repo == row.repo && a.number == row.number) = false := by
        rw [Bool.eq_false_iff]
        intro hc
        exact hk (by simpa [rowKeyEq] using hc)
      simpa [lookupRow, List.find?, hk, hcond] using ih h'

theorem lookupRow_append_new (cache : List PRRow) (row : PRRow)
    (h : ∀ r ∈ cache, rowKeyEq r row = false) :
    lookupRow (cache ++ [row]) row.repo row.number = some row := by
  induction cache with
  | nil => simp [lookupRow, List.find?]
  | cons a l ih =>
    have hcond : (a.repo == row.repo && a.number == row.number) = false := by
      have ha := h a (List.mem_cons_self _ _)
      simpa [rowKeyEq] using ha
    simpa [lookupRow, List.find?, hcond] using ih (fun r hr => h r (List.mem_cons_of_mem _ hr))

theorem lookupRow_upsertOne (cache : List PRRow) (row : PRRow) :
    lookupRow (upsertOne cache row) row.repo row.number = some row := by
  unfold upsertOne
  split
  · rename_i hany
    rw [List.any_eq_true] at hany
    exact lookupRow_map_replace cache row hany
  · rename_i hany
    refine lookupRow_append_new cache row ?_
    intro r hr
    rw [Bool.eq_false_iff]
    intro hc
    exact hany (List.any_eq_true.mpr ⟨r, hr, hc⟩)

/-- C4 (amended): writing a PR with `upsert_prs` and reading it back
round-trips every `PullRequest` attribute except `state` — the stored row
keeps all schema columns plus `fetched_at`, but the schema has no `state`
column, so the read-back record carries the dataclass default "open"
regardless of the written state. -/
theorem c4_roundtrip_drops_state (cache : List PRRow) (p : PullRequest) (ts : Nat) :
    lookupRow (upsert_prs cache [p] ts) p.repo p.number = some (prToRow p ts) ∧
    row_to_pr (prToRow p ts) = { p with state := "open" } :=
  ⟨lookupRow_upsertOne cache (prToRow p ts), rfl⟩

/-- C4 counterexample: upserting a merged PR and reading its repository back
does not return the written record — the state comes back "open", not
"merged". -/
theorem c4_roundtrip_counterexample :
    get_cached_prs_by_repo (upsert_prs [] [prMerged] 5) "o/r" ≠ [prMerged] := by
  decide

theorem find?_filtered_append (meta : List (String × Int)) (key : String) (ts : Int) :
    ((meta.filter (fun kv => kv.1 ≠ key)) ++ [(key, ts)]).find?
      (fun kv => kv.1 == key) = some (key, ts) := by
  induction meta with
  | nil => simp [List.find?]
  | cons a l ih =>
    by_cases ha : a.1 = key
    · simp [List.filter_cons, ha]
    · simp [List.filter_cons, ha, List.find?]

theorem get_last_refresh_record (meta : List (String × Int)) (scope : String) (ts : Int) :
    get_last_refresh (record_last_refresh meta scope ts) scope = some ts := by
  unfold get_last_refresh record_last_refresh
  rw [find?_filtered_append]
  rfl

/-- C7: `is_stale` is true exactly when no last-refresh timestamp is recorded
for the scope or the recorded timestamp is older than the threshold by
strictly more than `threshold` seconds; it is false immediately after
`record_last_refresh` under a non-negative threshold, and true again once the
age strictly exceeds the threshold. -/
theorem c7_is_stale_threshold (meta : List (String × Int)) (scope : String)
    (now ts threshold : Int) (hth : 0 ≤ threshold) :
    (is_stale meta scope now threshold = true ↔
      ∀ last, get_last_refresh meta scope = some last → now - last > threshold) ∧
    is_stale (record_last_refresh meta scope ts) scope ts threshold = false ∧
    (now - ts > threshold →
      is_stale (record_last_refresh meta scope ts) scope now threshold = true) := by
  refine ⟨?_, ?_, ?_⟩
  · unfold is_stale
    cases hget : get_last_refresh meta scope with
    | none => simp [hget]
    | some last => simp [hget]
  · unfold is_stale
    rw [get_last_refresh_record]
    simp
    omega
  · intro hgt
    unfold is_stale
    rw [get_last_refresh_record]
    simpa using hgt

theorem c7_is_stale_threshold_witness :
    is_stale (record_last_refresh [] "all" 100) "all" 100 60 = false ∧
    is_stale (record_last_refresh [] "all" 100) "all" 161 60 = true :=
  ⟨(c7_is_stale_threshold [] "all" 100 100 60 (by decide)).2.1,
   (c7_is_stale_threshold [] "all" 161 100 60 (by decide)).2.2 (by decide)⟩

theorem smCancelled_mem (q : List (String × Nat)) (scope : String) :
    ∀ t ∈ smCancelled q scope, (scope, t) ∈ q := by
  intro t ht
  unfold smCancelled at ht
  obtain ⟨e, he, het⟩ := List.mem_map.mp ht
  obtain ⟨he1, he2⟩ := List.mem_filter.mp he
  have he2' : e.1 = scope := by simpa using he2
  have : e = (scope, t) := by
    cases e
    simp_all
  exact this ▸ he1

theorem find?_filter_ne_scope (l : List (String × Nat)) (scope s' : String)
    (hne : s' ≠ scope) :
    (l.filter (fun e => e.1 ≠ scope)).find? (fun e => e.1 == s') =
      l.find? (fun e => e.1 == s') := by
  induction l with
  | nil => rfl
  | cons a l ih =>
    by_cases ha : a.1 = scope
    · rw [List.filter_cons_of_neg (by simp [ha])]
      rw [List.find?_cons_of_neg _ (by simp [ha]; exact fun h => hne h.symm)]
      exact ih
    · rw [List.filter_cons_of_pos (by simp [ha])]
      by_cases ha2 : a.1 = s'
      · rw [List.find?_cons_of_pos _ (by simp [ha2]),
          List.find?_cons_of_pos _ (by simp [ha2])]
      · rw [List.find?_cons_of_neg _ (by simp [ha2]),
          List.find?_cons_of_neg _ (by simp [ha2])]
        exact ih

theorem smSchedule_lookup_other (q : List (String × Nat)) (scope s' : String) (tid : Nat)
    (hne : s' ≠ scope) :
    smLookup (smSchedule q scope tid) s' = smLookup q s' := by
  unfold smLookup smSchedule
  rw [List.find?_append]
  have h2 : List.find? (fun e => e.1 == s') [(scope, tid)] = none := by
    rw [List.find?_cons_of_neg _ (by simp; exact Ne.symm hne)]
    rfl
  rw [h2, Option.or_none, find?_filter_ne_scope q scope s' hne]

theorem smSchedule_keys_nodup (q : List (String × Nat)) (scope : String) (tid : Nat)
    (h : (q.map Prod.fst).Nodup) :
    ((smSchedule q scope tid).map Prod.fst).Nodup := by
  unfold smSchedule
  rw [List.map_append]
  refine List.Nodup.append ?_ (by simp) ?_
  · exact ((List.filter_sublist q).map Prod.fst).nodup h
  · intro k hk hk'
    obtain ⟨e, he, hek⟩ := List.mem_map.mp hk
    obtain ⟨_, he2⟩ := List.mem_filter.mp he
    have : e.1 ≠ scope := by simpa using he2
    simp at hk'
    exact this (hek.trans hk')

/-- C6 (amended): `StorageManager.schedule_refresh` does track refreshes per
scope — it cancels only the queue entry of the scheduled scope, leaves every
other scope's task untouched, and keeps at most one queue entry per scope —
but the TUI app tracks all its background refreshes in the single
`_refresh_task` handle, and its `_cancel_existing_refresh` cancels the
in-flight task regardless of scope: scheduling a refresh for one scope there
does cancel a distinct scope's in-flight task. -/
theorem c6_per_scope_tracking (q : List (String × Nat)) (scope s' : String) (tid : Nat)
    (hq : (q.map Prod.fst).Nodup) (hne : s' ≠ scope) (current : Option (String × Nat)) :
    (∀ t ∈ smCancelled q scope, (scope, t) ∈ q) ∧
    smLookup (smSchedule q scope tid) s' = smLookup q s' ∧
    ((smSchedule q scope tid).map Prod.fst).Nodup ∧
    (∀ s0 t0, current = some (s0, t0) →
      (appScheduleRefresh current scope tid).2 = [t0]) :=
  ⟨smCancelled_mem q scope,
   smSchedule_lookup_other q scope s' tid hne,
   smSchedule_keys_nodup q scope tid hq,
   fun s0 t0 h => by rw [h]; rfl⟩

theorem c6_per_scope_tracking_witness :
    smLookup (smSchedule [("all", 3)] "repo:o/r" 4) "all" = smLookup [("all", 3)] "all" ∧
    (appScheduleRefresh (some ("all", 3)) "repo:o/r" 4).2 = [3] :=
  ⟨(c6_per_scope_tracking [("all", 3)] "repo:o/r" "all" 4 (by decide) (by decide)
      (some ("all", 3))).2.1,
   (c6_per_scope_tracking [("all", 3)] "repo:o/r" "all" 4 (by decide) (by decide)
      (some ("all", 3))).2.2.2 "all" 3 rfl⟩

/-- C6 counterexample: in the TUI app an in-flight refresh task for scope
"repo:o/r" is cancelled by scheduling a refresh for the distinct scope "all",
contradicting the claim that a refresh for one scope never cancels another
scope's in-flight task. -/
theorem c6_cross_scope_cancel_counterexample :
    (appScheduleRefresh (some ("repo:o/r", 7)) "all" 8).2 = [7] ∧
    ("repo:o/r" : String) ≠ "all" := by
  exact ⟨rfl, by decide⟩

theorem filter_num_orderedInsert (p : PullRequest) (l : List PullRequest) (n : Nat) :
    (List.orderedInsert prNumDescRel p l).filter (fun q => q.number == n) =
      if p.number = n then p :: l.filter (fun q => q.number == n)
      else l.filter (fun q => q.number == n) := by
  induction l with
  | nil =>
    by_cases hp : p.number = n <;>
      simp [List.orderedInsert, List.filter_cons, List.filter_nil, hp]
  | cons q l' ih =>
    rw [List.orderedInsert]
    by_cases hr : prNumDescRel p q
    · rw [if_pos hr]
      by_cases hp : p.number = n <;> simp [List.filter_cons, hp]
    · rw [if_neg hr]
      have hlt : p.number < q.number := by
        unfold prNumDescRel at hr
        omega
      by_cases hp : p.number = n
      · have hq : ¬ (q.number = n) := by omega
        simp [List.filter_cons, hq, ih, hp]
      · simp only [List.filter_cons, ih, if_neg hp]

theorem char_eq_of_toNat_eq {a b : Char} (h : a.toNat = b.toNat) : a = b := by
  apply Char.ext
  exact UInt32.ext h

theorem charListLt_trichotomy (as bs : List Char) :
    charListLt as bs = true ∨ as = bs ∨ charListLt bs as = true := by
  induction as generalizing bs with
  | nil =>
    cases bs with
    | nil => exact Or.inr (Or.inl rfl)
    | cons b bs => exact Or.inl rfl
  | cons a as ih =>
    cases bs with
    | nil => exact Or.inr (Or.inr rfl)
    | cons b bs =>
      rcases Nat.lt_trichotomy a.toNat b.toNat with h | h | h
      · left
        simp [charListLt, h]
      · have hab : a = b := char_eq_of_toNat_eq h
        subst hab
        rcases ih bs with h1 | h1 | h1
        · left
          simp [charListLt, h1]
        · exact Or.inr (Or.inl (by rw [h1]))
        · right; right
          simp [charListLt, h1]
      · right; right
        simp [charListLt, h]

theorem charListLt_trans {as bs cs : List Char} (h1 : charListLt as bs = true)
    (h2 : charListLt bs cs = true) : charListLt as cs = true := by
  induction as generalizing bs cs with
  | nil =>
    cases cs with
    | nil =>
      cases bs with
      | nil => exact absurd h1 (by simp [charListLt])
      | cons b bs => exact absurd h2 (by simp [charListLt])
    | cons c cs => rfl
  | cons a as ih =>
    cases bs with
    | nil => exact absurd h1 (by simp [charListLt])
    | cons b bs =>
      cases cs with
      | nil => exact absurd h2 (by simp [charListLt])
      | cons c cs =>
        rw [charListLt] at h1 h2 ⊢
        by_cases hab : a.toNat < b.toNat
        · by_cases hbc : b.toNat < c.toNat
          · rw [if_pos (Nat.lt_trans hab hbc)]
          · rw [if_neg hbc] at h2
            by_cases hcb : c.toNat < b.toNat
            · rw [if_pos hcb] at h2
              cases h2
            · have hbceq : b.toNat = c.toNat := by omega
              rw [if_pos (hbceq ▸ hab)]
        · rw [if_neg hab] at h1
          by_cases hba : b.toNat < a.toNat
          · rw [if_pos hba] at h1
            cases h1
          · have habeq : a.toNat = b.toNat := by omega
            rw [if_neg hba] at h1
            by_cases hbc : b.toNat < c.toNat
            · rw [if_pos (habeq ▸ hbc)]
            · rw [if_neg hbc] at h2
              by_cases hcb : c.toNat < b.toNat
              · rw [if_pos hcb] at h2
                cases h2
              · rw [if_neg (habeq ▸ hbc), if_neg (by omega : ¬ c.toNat < a.toNat)]
                rw [if_neg hcb] at h2
                exact ih h1 h2

theorem string_eq_of_data_eq {a b : String} (h : a.data = b.data) : a = b := by
  cases a
  cases b
  simp only [] at h
  rw [h]

theorem strLt_trichotomy (a b : String) :
    strLt a b = true ∨ a = b ∨ strLt b a = true := by
  rcases charListLt_trichotomy a.data b.data with h | h | h
  · exact Or.inl h
  · exact Or.inr (Or.inl (string_eq_of_data_eq h))
  · exact Or.inr (Or.inr h)

theorem mdRel_total : ∀ a b : PullRequest, mdRel a b ∨ mdRel b a := by
  intro a b
  rcases strLt_trichotomy a.repo b.repo with h | h | h
  · exact Or.inl (Or.inl h)
  · rcases Nat.le_total a.number b.number with hn | hn
    · exact Or.inl (Or.inr ⟨h, hn⟩)
    · exact Or.inr (Or.inr ⟨h.symm, hn⟩)
  · exact Or.inr (Or.inl h)

theorem mdRel_trans : ∀ a b c : PullRequest, mdRel a b → mdRel b c → mdRel a c := by
  intro a b c hab hbc
  rcases hab with h1 | ⟨h1, hn1⟩
  · rcases hbc with h2 | ⟨h2, hn2⟩
    · exact Or.inl (charListLt_trans h1 h2)
    · exact Or.inl (h2 ▸ h1)
  · rcases hbc with h2 | ⟨h2, hn2⟩
    · exact Or.inl (h1 ▸ h2)
    · exact Or.inr ⟨h1.trans h2, Nat.le_trans hn1 hn2⟩

theorem filter_num_insertionSort (l : List PullRequest) (n : Nat) :
    (List.insertionSort prNumDescRel l).filter (fun q => q.number == n) =
      l.filter (fun q => q.number == n) := by
  induction l with
  | nil => rfl
  | cons p l' ih =>
    rw [List.insertionSort, filter_num_orderedInsert]
    by_cases hp : p.number = n <;> simp [List.filter_cons, hp, ih]

/-- C9 (amended): the TUI merged multi-repository view is the concatenation of
the per-repository lists stably sorted by PR number descending — rows with
equal numbers keep their concatenation order, they are not reordered by
repository name — while the markdown exporter sorts its input independently by
(repo, number) ascending; the two orders are not one shared order. -/
theorem c9_merge_sort_order (lists : List (List PullRequest)) (prs : List PullRequest)
    (n : Nat) :
    (mergeAndSortTUI lists).Perm lists.flatten ∧
    List.Sorted prNumDescRel (mergeAndSortTUI lists) ∧
    (mergeAndSortTUI lists).filter (fun q => q.number == n) =
      lists.flatten.filter (fun q => q.number == n) ∧
    (markdown_sort prs).Perm prs ∧
    List.Sorted mdRel (markdown_sort prs) :=
  ⟨List.perm_insertionSort prNumDescRel lists.flatten,
   List.sorted_insertionSort prNumDescRel lists.flatten,
   filter_num_insertionSort lists.flatten n,
   List.perm_insertionSort mdRel prs,
   @List.sorted_insertionSort PullRequest mdRel _ ⟨mdRel_total⟩ ⟨mdRel_trans⟩ prs⟩

/-- C9 counterexample: two PRs with the same number from repositories "b/r"
and "a/r", concatenated in that order: the code keeps the tie in concatenation
order while the claimed number-descending, repo-name-tie-broken order swaps
them; and the markdown exporter reorders them, so the two orders are not
shared. -/
theorem c9_merge_sort_counterexample :
    mergeAndSortTUI [[prTieB], [prTieA]] ≠ spec_merge_and_sort [[prTieB], [prTieA]] ∧
    markdown_sort (mergeAndSortTUI [[prTieB], [prTieA]]) ≠
      mergeAndSortTUI [[prTieB], [prTieA]] := by
  constructor <;> decide

/-- C1 (amended): the repo-scope background refresh writes its allow-list
filtered fetch result with `upsert_prs`, not with a whole-repository
replace (no sync operation exists in the code): a failed fetch leaves the
cache unchanged, every cached row whose key is absent from the fetch result
remains cached afterwards, and every fetched row is inserted or replaced. -/
theorem c1_repo_refresh_is_upsert (cache : List PRRow) (cfg : AppConfig)
    (repo_name : String) (fetch : String → Except Unit (List PullRequest)) (ts : Nat) :
    (∀ e, fetch repo_name = .error e → repo_name.data.contains '/' = true →
      refresh_repo_write cache cfg repo_name fetch ts = cache) ∧
    (∀ r ∈ cache, (∀ prs, load_prs_by_repo cfg repo_name fetch = .ok prs →
        ∀ p ∈ prs, prKey p ≠ rowKey r) →
      r ∈ refresh_repo_write cache cfg repo_name fetch ts) ∧
    (∀ prs, load_prs_by_repo cfg repo_name fetch = .ok prs →
      ∀ p ∈ prs, (∀ q ∈ prs, prKey q = prKey p → q = p) →
      prToRow p ts ∈ refresh_repo_write cache cfg repo_name fetch ts) := by
  refine ⟨?_, ?_, ?_⟩
  · intro e hf hc
    unfold refresh_repo_write load_prs_by_repo
    rw [if_pos hc, hf]
  · intro r hr h
    unfold refresh_repo_write
    cases hload : load_prs_by_repo cfg repo_name fetch with
    | error e => exact hr
    | ok prs => exact mem_upsert_prs_of_no_key prs cache ts r hr (h prs hload)
  · intro prs hload p hp huniq
    unfold refresh_repo_write
    rw [hload]
    exact mem_upsert_prs_of_mem_batch prs cache ts p hp huniq

/-- C1 counterexample: row (o/r, 1) is cached and the fetch for "o/r"
succeeds with an empty result; after the repo-scope refresh the cached rows
for "o/r" are not the fetched result — the stale row is still returned,
because the write is an upsert rather than a replace. -/
theorem c1_repo_refresh_counterexample :
    get_cached_prs_by_repo
      (refresh_repo_write [rowA] ⟨[], []⟩ "o/r" (fun _ => .ok []) 9) "o/r" ≠ [] := by
  decide

theorem c1_repo_refresh_is_upsert_witness :
    rowA ∈ refresh_repo_write [rowA] ⟨[], []⟩ "o/r" (fun _ => .ok []) 9 :=
  (c1_repo_refresh_is_upsert [rowA] ⟨[], []⟩ "o/r" (fun _ => .ok []) 9).2.1 rowA
    (by decide)
    (by
      intro prs hload p hp
      have : prs = [] := by
        have h := hload
        simp [load_prs_by_repo] at h
        exact h
      subst this
      cases hp)

/-- C2: the cache holds (o/r, 42) with one approval and the single-PR fetch
reports the PR with state "closed"; after the single-PR refresh the row is
still cached — upserted with two approvals and the state reset to "open" —
instead of being deleted as the claim (and the repository's own
tests/test_single_pr_refresh_fix.py) requires. -/
theorem c2_single_pr_refresh_keeps_closed_row :
    get_cached_prs_by_repo
        (refresh_single_pr_write [prToRow pr42 5] "o/r" (.ok closed42) (.ok 2) 9) "o/r" =
      [{ pr42 with approvals := 2 }] := by
  decide

theorem foldl_deleteByKey (dels : List PRRow) (c : List PRRow) :
    dels.foldl (fun acc d => deleteByKey acc d.repo d.number) c =
      c.filter (fun r => !(dels.any (fun d => r.repo == d.repo && r.number == d.number))) := by
  induction dels generalizing c with
  | nil => simp
  | cons d ds ih =>
    rw [List.foldl_cons, ih]
    unfold deleteByKey
    rw [List.filter_filter]
    apply List.filter_congr
    intro r _
    cases hx : (r.repo == d.repo && r.number == d.number) <;>
      cases hy : ds.any (fun d => r.repo == d.repo && r.number == d.number) <;>
        simp [List.any_cons, hx, hy]

theorem delete_phase2_filter (c1 : List PRRow) (sel : PRRow → Bool)
    (hinj : ∀ r ∈ c1, ∀ r' ∈ c1, rowKey r = rowKey r' → r = r') :
    (c1.filter sel).foldl (fun acc d => deleteByKey acc d.repo d.number) c1 =
      c1.filter (fun r => !(sel r)) := by
  rw [foldl_deleteByKey]
  apply List.filter_congr
  intro r hr
  congr 1
  by_cases hs : sel r = true
  · rw [hs]
    refine List.any_eq_true.mpr ⟨r, List.mem_filter.mpr ⟨hr, hs⟩, by simp⟩
  · rw [Bool.eq_false_iff.mpr hs, ← Bool.not_eq_true]
    intro hany
    obtain ⟨d, hd, hdk⟩ := List.any_eq_true.mp hany
    obtain ⟨hdc1, hdsel⟩ := List.mem_filter.mp hd
    have hdr : d = r := by
      refine hinj d hdc1 r hr ?_
      obtain ⟨h1, h2⟩ : r.repo = d.repo ∧ r.number = d.number := by simpa using hdk
      simp [rowKey, h1, h2]
    exact hs (hdr ▸ hdsel)

theorem bool_not_and_or (x y z : Bool) :
    (!(x && y) && !(x && z)) = !(x && (y || z)) := by
  cases x <;> cases y <;> cases z <;> rfl

theorem delete_scoped_eq (cache : List PRRow) (account rn : String)
    (hinj : ∀ r ∈ cache, ∀ r' ∈ cache, rowKey r = rowKey r' → r = r') :
    delete_by_account_scoped cache account rn =
      cache.filter
        (fun r => !(r.repo == rn && (r.author == account || r.assignees.contains account))) := by
  unfold delete_by_account_scoped
  dsimp only
  rw [List.filter_filter]
  have hinj1 : ∀ r ∈ cache.filter (fun r => !(r.repo == rn && r.author == account)),
      ∀ r' ∈ cache.filter (fun r => !(r.repo == rn && r.author == account)),
      rowKey r = rowKey r' → r = r' := by
    intro r hr r' hr' hk
    exact hinj r (List.mem_of_mem_filter hr) r' (List.mem_of_mem_filter hr') hk
  rw [delete_phase2_filter _ _ hinj1, List.filter_filter]
  apply List.filter_congr
  intro r _
  rw [← bool_not_and_or]
  cases hx : (r.repo == rn) <;> cases hy : (r.author == account) <;>
    cases hz : r.assignees.contains account <;> simp [hx, hy, hz]

theorem delete_global_eq (cache : List PRRow) (account : String)
    (hinj : ∀ r ∈ cache, ∀ r' ∈ cache, rowKey r = rowKey r' → r = r') :
    delete_by_account_global cache account =
      cache.filter (fun r => !(r.author == account || r.assignees.contains account)) := by
  unfold delete_by_account_global
  dsimp only
  have hinj1 : ∀ r ∈ cache.filter (fun r => !(r.author == account)),
      ∀ r' ∈ cache.filter (fun r => !(r.author == account)),
      rowKey r = rowKey r' → r = r' := by
    intro r hr r' hr' hk
    exact hinj r (List.mem_of_mem_filter hr) r' (List.mem_of_mem_filter hr') hk
  rw [delete_phase2_filter _ _ hinj1, List.filter_filter]
  apply List.filter_congr
  intro r _
  cases hy : (r.author == account) <;> cases hz : r.assignees.contains account <;>
    simp [hy, hz]

/-- C10 (amended): `delete_prs_by_account` removes whole rows only and
exactly — every row within the scope whose author equals the account or whose
assignee list contains the account (exact membership) is deleted, and no
surviving row is modified — with the proviso that, because of Python
truthiness, a supplied empty-string repository name behaves like no scope at
all: the deletion then applies across all repositories. -/
theorem c10_delete_by_account (cache : List PRRow) (account : String)
    (repoOpt : Option String) (hnd : (cache.map rowKey).Nodup) :
    delete_prs_by_account cache account repoOpt =
      cache.filter (fun r =>
        !((match repoOpt with
           | some rn => if rn = "" then true else r.repo == rn
           | none => true) &&
          (r.author == account || r.assignees.contains account))) := by
  have hinj : ∀ r ∈ cache, ∀ r' ∈ cache, rowKey r = rowKey r' → r = r' :=
    fun r hr r' hr' hk => List.inj_on_of_nodup_map hnd hr hr' hk
  match repoOpt with
  | none =>
    rw [show delete_prs_by_account cache account none =
        delete_by_account_global cache account from rfl,
      delete_global_eq cache account hinj]
    apply List.filter_congr
    intro r _
    simp
  | some rn =>
    by_cases hrn : rn = ""
    · subst hrn
      rw [show delete_prs_by_account cache account (some "") =
          delete_by_account_global cache account from rfl,
        delete_global_eq cache account hinj]
      apply List.filter_congr
      intro r _
      simp
    · rw [show delete_prs_by_account cache account (some rn) =
          (if rn = "" then delete_by_account_global cache account
           else delete_by_account_scoped cache account rn) from rfl,
        if_neg hrn, delete_scoped_eq cache account rn hinj]
      apply List.filter_congr
      intro r _
      simp only [if_neg hrn]

theorem c10_delete_by_account_witness :
    delete_prs_by_account [rowA, rowB] "alice" none = [rowB] := by
  have h := c10_delete_by_account [rowA, rowB] "alice" none (by decide)
  rw [h]
  decide

theorem mem_of_mem_filter_prs {prs : List PullRequest} {users : List String}
    {p : PullRequest} (h : p ∈ filter_prs prs users) : p ∈ prs := by
  unfold filter_prs at h
  split at h
  · exact h
  · exact List.mem_of_mem_filter h

theorem repoContrib_sub (g : List String) (fetch : String → Except Unit (List PullRequest))
    (rc : RepoConfig) (p : PullRequest) (hp : p ∈ repoContrib g fetch rc) :
    ∃ prs, fetch rc.name = .ok prs ∧ p ∈ prs := by
  unfold repoContrib at hp
  split at hp
  · cases hfetch : fetch rc.name with
    | error e => rw [hfetch] at hp; cases hp
    | ok prs =>
      rw [hfetch] at hp
      dsimp only at hp
      refine ⟨prs, rfl, ?_⟩
      split at hp
      · exact hp
      · exact mem_of_mem_filter_prs hp
  · cases hp

/-- C5: during a refresh of the all scope, repositories are fetched and
written independently: every configured repository whose fetch fails keeps its
previously cached rows exactly as they were, while every repository whose
fetch succeeds still has its filtered result written into the cache. -/
theorem c5_partial_failure_isolation (cache : List PRRow) (cfg : AppConfig)
    (fetch : String → Except Unit (List PullRequest)) (ts : Nat)
    (hnames : (cfg.repositories.map RepoConfig.name).Nodup)
    (htag : ∀ name prs, fetch name = .ok prs → ∀ p ∈ prs, p.repo = name)
    (hnums : ∀ name prs, fetch name = .ok prs → (prs.map PullRequest.number).Nodup) :
    (∀ rc ∈ cfg.repositories, fetch rc.name = .error () →
      (refresh_all_write cache cfg fetch ts).filter (fun r => r.repo == rc.name) =
        cache.filter (fun r => r.repo == rc.name)) ∧
    (∀ rc ∈ cfg.repositories, ∀ p ∈ repoContrib cfg.global_users fetch rc,
      prToRow p ts ∈ refresh_all_write cache cfg fetch ts) := by
  have hmemload : ∀ p, p ∈ load_all_prs cfg fetch ↔
      ∃ rc ∈ cfg.repositories, p ∈ repoContrib cfg.global_users fetch rc := by
    intro p
    unfold load_all_prs
    rw [(List.perm_insertionSort prNumDescRel _).mem_iff, List.mem_flatten]
    constructor
    · rintro ⟨l, hl, hpl⟩
      obtain ⟨rc, hrc, rfl⟩ := List.mem_map.mp hl
      exact ⟨rc, hrc, hpl⟩
    · rintro ⟨rc, hrc, hp⟩
      exact ⟨repoContrib cfg.global_users fetch rc, List.mem_map_of_mem _ hrc, hp⟩
  constructor
  · intro rc hrc herr
    unfold refresh_all_write
    apply upsert_prs_filter_repo_ne
    intro p hp
    obtain ⟨rc', hrc', hpc⟩ := (hmemload p).mp hp
    obtain ⟨prs, hfetch, hpp⟩ := repoContrib_sub _ _ _ _ hpc
    have hrepo : p.repo = rc'.name := htag rc'.name prs hfetch p hpp
    intro hcontra
    have hrceq : rc' = rc :=
      List.inj_on_of_nodup_map hnames hrc' hrc (by rw [← hrepo, hcontra])
    rw [hrceq, herr] at hfetch
    cases hfetch
  · intro rc hrc p hp
    unfold refresh_all_write
    have hpmem : p ∈ load_all_prs cfg fetch := (hmemload p).mpr ⟨rc, hrc, hp⟩
    apply mem_upsert_prs_of_mem_batch _ _ _ _ hpmem
    intro q hq hqk
    obtain ⟨rc', hrc', hqc⟩ := (hmemload q).mp hq
    obtain ⟨prsq, hfetchq, hqq⟩ := repoContrib_sub _ _ _ _ hqc
    obtain ⟨prsp, hfetchp, hpp⟩ := repoContrib_sub _ _ _ _ hp
    have hqrepo : q.repo = rc'.name := htag rc'.name prsq hfetchq q hqq
    have hprepo : p.repo = rc.name := htag rc.name prsp hfetchp p hpp
    have hkeys : q.repo = p.repo ∧ q.number = p.number := by
      simpa [prKey, Prod.ext_iff] using hqk
    have hrceq : rc' = rc :=
      List.inj_on_of_nodup_map hnames hrc' hrc (by rw [← hqrepo, ← hprepo, hkeys.1])
    rw [hrceq] at hfetchq
    rw [hfetchp] at hfetchq
    have hprs : prsq = prsp := by cases hfetchq; rfl
    rw [hprs] at hqq
    exact List.inj_on_of_nodup_map (hnums rc.name prsp hfetchp) hqq hpp hkeys.2

theorem c5_partial_failure_isolation_witness :
    prToRow prA 9 ∈ refresh_all_write [rowB] ⟨[], [⟨"o/r", none⟩, ⟨"x/y", none⟩]⟩
      (fun n => if n == "o/r" then .ok [prA] else .error ()) 9 ∧
    (refresh_all_write [rowB] ⟨[], [⟨"o/r", none⟩, ⟨"x/y", none⟩]⟩
        (fun n => if n == "o/r" then .ok [prA] else .error ()) 9).filter
      (fun r => r.repo == "x/y") = ([rowB] : List PRRow).filter (fun r => r.repo == "x/y") := by
  have htag : ∀ name prs,
      (fun n => if n == "o/r" then (Except.ok [prA] : Except Unit (List PullRequest))
        else .error ()) name = .ok prs → ∀ p ∈ prs, p.repo = name := by
    intro name prs hok p hp
    by_cases hn : name = "o/r"
    · subst hn
      simp at hok
      rw [← hok] at hp
      simp at hp
      rw [hp]
      rfl
    · simp [hn] at hok
  have hnums : ∀ name prs,
      (fun n => if n == "o/r" then (Except.ok [prA] : Except Unit (List PullRequest))
        else .error ()) name = .ok prs → (prs.map PullRequest.number).Nodup := by
    intro name prs hok
    by_cases hn : name = "o/r"
    · subst hn
      simp at hok
      rw [← hok]
      decide
    · simp [hn] at hok
  have h := c5_partial_failure_isolation [rowB] ⟨[], [⟨"o/r", none⟩, ⟨"x/y", none⟩]⟩
      (fun n => if n == "o/r" then .ok [prA] else .error ()) 9 (by decide) htag hnums
  exact ⟨h.2 ⟨"o/r", none⟩ (by decide) prA (by decide),
         h.1 ⟨"x/y", none⟩ (by decide) rfl⟩

theorem safe_char_ne {c x : Char} (hc : safeChar c = true) (hx : safeChar x = false) :
    c ≠ x := by
  intro h
  rw [h, hx] at hc
  cases hc

theorem asciiLower_safe {c : Char} (hc : safeChar c = true) :
    safeChar (asciiLower c) = true := by
  unfold asciiLower
  split <;> first | decide | exact hc

theorem likeMatch_percent_all (cs : List Char) : likeMatch ['%'] cs = true := by
  induction cs with
  | nil => simp [likeMatch]
  | cons c cr ih => simp [likeMatch, ih]

theorem likeMatch_percent_iff (ps cs : List Char) :
    likeMatch ('%' :: ps) cs = true ↔ ∃ n, likeMatch ps (cs.drop n) = true := by
  induction cs with
  | nil =>
    constructor
    · intro h
      refine ⟨0, ?_⟩
      simpa [likeMatch] using h
    · rintro ⟨n, hn⟩
      simp only [List.drop_nil] at hn
      simpa [likeMatch] using hn
  | cons c cr ih =>
    constructor
    · intro h
      rw [likeMatch, if_pos rfl, Bool.or_eq_true] at h
      rcases h with h1 | h1
      · exact ⟨0, h1⟩
      · obtain ⟨n, hn⟩ := ih.mp h1
        exact ⟨n + 1, hn⟩
    · rintro ⟨n, hn⟩
      rw [likeMatch, if_pos rfl, Bool.or_eq_true]
      cases n with
      | zero => exact Or.inl hn
      | succ m => exact Or.inr (ih.mpr ⟨m, hn⟩)

theorem likeMatch_literal_then_percent (w : List Char)
    (hw : ∀ c ∈ w, c ≠ '%' ∧ c ≠ '_') (cs : List Char) :
    likeMatch (w ++ ['%']) cs = true ↔ startsWithFold w cs = true := by
  induction w generalizing cs with
  | nil =>
    simp only [List.nil_append, startsWithFold]
    simp [likeMatch_percent_all]
  | cons p w' ih =>
    have hp := hw p (List.mem_cons_self _ _)
    cases cs with
    | nil =>
      rw [List.cons_append, likeMatch]
      simp [hp.1, startsWithFold]
    | cons c cr =>
      rw [List.cons_append, likeMatch, if_neg hp.1, if_neg hp.2]
      rw [startsWithFold]
      rw [Bool.and_eq_true, Bool.and_eq_true]
      exact and_congr Iff.rfl (ih (fun x hx => hw x (List.mem_cons_of_mem _ hx)) cr)

theorem containsSeqFold_iff_drop (w cs : List Char) :
    containsSeqFold w cs = true ↔ ∃ n, startsWithFold w (cs.drop n) = true := by
  induction cs with
  | nil =>
    rw [containsSeqFold]
    constructor
    · intro h
      exact ⟨0, h⟩
    · rintro ⟨n, hn⟩
      simpa using hn
  | cons c cr ih =>
    rw [containsSeqFold]
    constructor
    · intro h
      rw [Bool.or_eq_true] at h
      rcases h with h1 | h1
      · exact ⟨0, h1⟩
      · obtain ⟨n, hn⟩ := ih.mp h1
        exact ⟨n + 1, hn⟩
    · rintro ⟨n, hn⟩
      rw [Bool.or_eq_true]
      cases n with
      | zero => exact Or.inl hn
      | succ m => exact Or.inr (ih.mpr ⟨m, hn⟩)

theorem likeMatch_contains (w cs : List Char) (hw : ∀ c ∈ w, c ≠ '%' ∧ c ≠ '_') :
    likeMatch ('%' :: (w ++ ['%'])) cs = true ↔ containsSeqFold w cs = true := by
  rw [likeMatch_percent_iff, containsSeqFold_iff_drop]
  exact exists_congr fun n => likeMatch_literal_then_percent w hw (cs.drop n)

theorem startsWithPlain_append_same (x y z : List Char) :
    startsWithPlain (x ++ y) (x ++ z) = startsWithPlain y z := by
  induction x with
  | nil => rfl
  | cons c x' ih => simp [startsWithPlain, ih]

theorem startsWithPlain_quote_end {w : List Char} (hw : '"' ∉ w) :
    ∀ {a : List Char}, '"' ∉ a → ∀ {t : List Char},
      startsWithPlain (w ++ ['"']) (a ++ '"' :: t) = true → w = a := by
  induction w with
  | nil =>
    intro a ha t h
    cases a with
    | nil => rfl
    | cons x a' =>
      rw [List.nil_append, List.cons_append, startsWithPlain, Bool.and_eq_true] at h
      have hx : '"' = x := by simpa using h.1
      exact absurd (show ('"' : Char) ∈ x :: a' by rw [hx]; exact List.mem_cons_self _ _) ha
  | cons p w' ih =>
    intro a ha t h
    cases a with
    | nil =>
      rw [List.nil_append, List.cons_append, startsWithPlain, Bool.and_eq_true] at h
      have hp : p = '"' := by simpa using h.1
      exact absurd (show ('"' : Char) ∈ p :: w' by rw [← hp]; exact List.mem_cons_self _ _) hw
    | cons x a' =>
      rw [List.cons_append, List.cons_append, startsWithPlain, Bool.and_eq_true] at h
      have hpx : p = x := by simpa using h.1
      have hrec := ih (fun hq => hw (List.mem_cons_of_mem _ hq))
        (fun hq => ha (List.mem_cons_of_mem _ hq)) h.2
      rw [hpx, hrec]

theorem startsWithPlain_quote_iff {w a t : List Char} (hw : '"' ∉ w) (ha : '"' ∉ a) :
    startsWithPlain (w ++ ['"']) (a ++ '"' :: t) = true ↔ w = a := by
  constructor
  · exact startsWithPlain_quote_end hw ha
  · rintro rfl
    rw [startsWithPlain_append_same w ['"'] ('"' :: t)]
    simp [startsWithPlain]

theorem containsPlain_cons_of_ne {p : Char} (Pr : List Char) {c : Char} (cs : List Char)
    (hne : p ≠ c) : containsPlain (p :: Pr) (c :: cs) = containsPlain (p :: Pr) cs := by
  rw [containsPlain]
  have hsw : startsWithPlain (p :: Pr) (c :: cs) = false := by
    rw [startsWithPlain]
    simp [hne]
  rw [hsw, Bool.false_or]

theorem containsPlain_append_skip {p : Char} (Pr : List Char) {a : List Char}
    (cs : List Char) (ha : p ∉ a) :
    containsPlain (p :: Pr) (a ++ cs) = containsPlain (p :: Pr) cs := by
  induction a with
  | nil => rfl
  | cons x a' ih =>
    rw [List.cons_append,
      containsPlain_cons_of_ne Pr _
        (fun h => ha (by rw [h]; exact List.mem_cons_self _ _))]
    exact ih (fun h => ha (List.mem_cons_of_mem _ h))

theorem containsPlain_quoted_items_aux (c0 : Char) (w0 : List Char)
    (hw : '"' ∉ c0 :: w0) (hc0 : c0 ≠ ',' ∧ c0 ≠ ']' ∧ c0 ≠ ' ') :
    ∀ as : List (List Char), (∀ a ∈ as, '"' ∉ a) →
      (containsPlain ('"' :: ((c0 :: w0) ++ ['"'])) (plainItems as ++ [']']) = true ↔
        ∃ a ∈ as, a = c0 :: w0) := by
  intro as
  induction as with
  | nil =>
    intro _
    rw [show plainItems ([] : List (List Char)) ++ [']'] = [']'] from rfl,
      containsPlain_cons_of_ne _ _ (by decide)]
    constructor
    · intro h
      simp [containsPlain, startsWithPlain] at h
    · rintro ⟨a, ha, _⟩
      cases ha
  | cons a rest ih =>
    intro has
    have haq : '"' ∉ a := has a (List.mem_cons_self _ _)
    have hswq : ∀ Y : List Char,
        startsWithPlain ('"' :: ((c0 :: w0) ++ ['"'])) ('"' :: Y) =
          startsWithPlain ((c0 :: w0) ++ ['"']) Y := by
      intro Y
      rw [startsWithPlain]
      simp
    have hswc0 : ∀ z : Char, ∀ Z : List Char, c0 ≠ z →
        startsWithPlain ('"' :: ((c0 :: w0) ++ ['"'])) ('"' :: z :: Z) = false := by
      intro z Z hz
      rw [hswq, List.cons_append, startsWithPlain]
      simp [hz]
    cases rest with
    | nil =>
      rw [show plainItems [a] ++ [']'] = '"' :: (a ++ '"' :: [']']) from by
        simp [plainItems]]
      rw [containsPlain, hswq, containsPlain_append_skip _ _ haq]
      rw [containsPlain, hswc0 ']' [] hc0.2.1]
      have hrest : containsPlain ('"' :: ((c0 :: w0) ++ ['"'])) [']'] = false := by
        rw [containsPlain_cons_of_ne _ _ (by decide)]
        rfl
      rw [hrest, Bool.or_false, Bool.or_false, startsWithPlain_quote_iff hw haq]
      constructor
      · intro h
        exact ⟨a, List.mem_cons_self _ _, h.symm⟩
      · rintro ⟨a', ha', heq⟩
        rcases List.mem_cons.mp ha' with rfl | hmem
        · exact heq.symm
        · cases hmem
    | cons b rest' =>
      rw [show plainItems (a :: b :: rest') ++ [']'] =
          '"' :: (a ++ '"' :: ',' :: ' ' :: (plainItems (b :: rest') ++ [']'])) from by
        simp [plainItems]]
      rw [containsPlain, hswq, containsPlain_append_skip _ _ haq]
      rw [containsPlain, hswc0 ',' _ hc0.1]
      rw [containsPlain_cons_of_ne _ _ (by decide),
        containsPlain_cons_of_ne _ _ (by decide)]
      rw [Bool.false_or, Bool.or_eq_true]
      rw [startsWithPlain_quote_iff hw haq]
      rw [ih (fun x hx => has x (List.mem_cons_of_mem _ hx))]
      constructor
      · rintro (h | ⟨a', ha', heq⟩)
        · exact ⟨a, List.mem_cons_self _ _, h.symm⟩
        · exact ⟨a', List.mem_cons_of_mem _ ha', heq⟩
      · rintro ⟨a', ha', heq⟩
        rcases List.mem_cons.mp ha' with rfl | hmem
        · exact Or.inl heq.symm
        · exact Or.inr ⟨a', hmem, heq⟩

theorem containsPlain_quoted_items (w : List Char) (as : List (List Char))
    (hw : '"' ∉ w) (hwne : w ≠ [])
    (hwcm : ∀ c ∈ w, c ≠ ',' ∧ c ≠ ']' ∧ c ≠ ' ')
    (has : ∀ a ∈ as, '"' ∉ a) :
    containsPlain ('"' :: (w ++ ['"'])) (plainItems as ++ [']']) = true ↔
      ∃ a ∈ as, a = w := by
  obtain ⟨c0, w0, rfl⟩ : ∃ c0 w0, w = c0 :: w0 := by
    cases w with
    | nil => exact absurd rfl hwne
    | cons c0 w0 => exact ⟨c0, w0, rfl⟩
  exact containsPlain_quoted_items_aux c0 w0 hw (hwcm c0 (List.mem_cons_self _ _)) as has

theorem startsWithFold_eq_plain (w : List Char) :
    ∀ cs, startsWithFold w cs = startsWithPlain (w.map asciiLower) (cs.map asciiLower) := by
  induction w with
  | nil => intro cs; cases cs <;> rfl
  | cons p pr ih =>
    intro cs
    cases cs with
    | nil => rfl
    | cons c cr => simp [startsWithFold, startsWithPlain, ih]

theorem containsSeqFold_eq_plain (w cs : List Char) :
    containsSeqFold w cs = containsPlain (w.map asciiLower) (cs.map asciiLower) := by
  induction cs with
  | nil =>
    rw [containsSeqFold]
    simpa [containsPlain] using startsWithFold_eq_plain w []
  | cons c cr ih =>
    rw [containsSeqFold, ih, startsWithFold_eq_plain w (c :: cr)]
    simp [containsPlain]

theorem jsonEscapeChar_eq_self {c : Char} (h1 : c ≠ '"') (h2 : c ≠ '\\') :
    jsonEscapeChar c = [c] := by
  unfold jsonEscapeChar
  rw [if_neg]
  rintro (h | h)
  · exact h1 h
  · exact h2 h

theorem jsonEscape_eq_self {a : List Char} (ha : ∀ c ∈ a, c ≠ '"' ∧ c ≠ '\\') :
    jsonEscape a = a := by
  induction a with
  | nil => rfl
  | cons c a' ih =>
    have hc := ha c (List.mem_cons_self _ _)
    show jsonEscapeChar c ++ jsonEscape a' = c :: a'
    rw [jsonEscapeChar_eq_self hc.1 hc.2, ih (fun x hx => ha x (List.mem_cons_of_mem _ hx))]
    rfl

theorem jsonItems_eq_plain {as : List (List Char)}
    (has : ∀ a ∈ as, ∀ c ∈ a, c ≠ '"' ∧ c ≠ '\\') :
    jsonItems as = plainItems as := by
  induction as with
  | nil => rfl
  | cons a rest ih =>
    cases rest with
    | nil =>
      rw [jsonItems, plainItems, jsonEscape_eq_self (has a (List.mem_cons_self _ _))]
    | cons b rest' =>
      rw [jsonItems, plainItems, jsonEscape_eq_self (has a (List.mem_cons_self _ _)),
        ih (fun x hx => has x (List.mem_cons_of_mem _ hx))]

theorem asciiLower_quote : asciiLower '"' = '"' := rfl

theorem asciiLower_comma : asciiLower ',' = ',' := rfl

theorem asciiLower_space : asciiLower ' ' = ' ' := rfl

theorem map_asciiLower_plainItems (as : List (List Char)) :
    (plainItems as).map asciiLower = plainItems (as.map (List.map asciiLower)) := by
  induction as with
  | nil => rfl
  | cons a rest ih =>
    cases rest with
    | nil => simp [plainItems, asciiLower_quote]
    | cons b rest' =>
      simp [plainItems, asciiLower_quote, asciiLower_comma, asciiLower_space, ih]

theorem likeMatch_account_iff (account : List Char) (as : List (List Char))
    (hacc : ∀ c ∈ account, safeChar c = true) (hne : account ≠ [])
    (has : ∀ a ∈ as, ∀ c ∈ a, safeChar c = true) :
    (likeMatch (likePatternChars account) (jsonDumpChars as) = true ↔
      ∃ a ∈ as, a.map asciiLower = account.map asciiLower) := by
  have hpat : likePatternChars account = '%' :: (('"' :: (account ++ ['"'])) ++ ['%']) := by
    simp [likePatternChars]
  have hw : ∀ c ∈ '"' :: (account ++ ['"']), c ≠ '%' ∧ c ≠ '_' := by
    intro c hc
    rcases List.mem_cons.mp hc with rfl | hc'
    · exact ⟨by decide, by decide⟩
    · rcases List.mem_append.mp hc' with hc2 | hc2
      · have hsafe := hacc c hc2
        exact ⟨safe_char_ne hsafe (by decide), safe_char_ne hsafe (by decide)⟩
      · rcases List.mem_singleton.mp hc2 with rfl
        exact ⟨by decide, by decide⟩
  rw [hpat, likeMatch_contains _ _ hw, containsSeqFold_eq_plain]
  have hsafe_ne : ∀ a : List Char, (∀ c ∈ a, safeChar c = true) →
      ∀ c ∈ a, c ≠ '"' ∧ c ≠ '\\' := by
    intro a ha c hc
    exact ⟨safe_char_ne (ha c hc) (by decide), safe_char_ne (ha c hc) (by decide)⟩
  have hmapw : ('"' :: (account ++ ['"'])).map asciiLower =
      '"' :: (account.map asciiLower ++ ['"']) := by
    simp [asciiLower_quote]
  have hmapdump : (jsonDumpChars as).map asciiLower =
      '[' :: (plainItems (as.map (List.map asciiLower)) ++ [']']) := by
    unfold jsonDumpChars
    rw [jsonItems_eq_plain (fun a ha => hsafe_ne a (has a ha))]
    simp [map_asciiLower_plainItems]
    exact ⟨rfl, rfl⟩
  rw [hmapw, hmapdump, containsPlain_cons_of_ne _ _ (by decide)]
  rw [containsPlain_quoted_items]
  · constructor
    · rintro ⟨a', ha', heq⟩
      obtain ⟨a, ha, rfl⟩ := List.mem_map.mp ha'
      exact ⟨a, ha, heq⟩
    · rintro ⟨a, ha, heq⟩
      exact ⟨a.map asciiLower, List.mem_map_of_mem _ ha, heq⟩
  · intro hq
    obtain ⟨c, hc, hcq⟩ := List.mem_map.mp hq
    exact safe_char_ne (asciiLower_safe (hacc c hc)) (by decide) hcq
  · intro hnil
    exact hne (List.map_eq_nil_iff.mp hnil)
  · intro c hc
    obtain ⟨c0, hc0, rfl⟩ := List.mem_map.mp hc
    have hsafe := asciiLower_safe (hacc c0 hc0)
    exact ⟨safe_char_ne hsafe (by decide), safe_char_ne hsafe (by decide),
      safe_char_ne hsafe (by decide)⟩
  · intro a' ha' hq
    obtain ⟨a, ha, rfl⟩ := List.mem_map.mp ha'
    obtain ⟨c, hc, hcq⟩ := List.mem_map.mp hq
    exact safe_char_ne (asciiLower_safe (has a ha c hc)) (by decide) hcq

theorem accountMatchRow_iff (login : String) (r : PRRow)
    (hl : ∀ c ∈ login.data, safeChar c = true) (hne : login ≠ "")
    (hras : ∀ a ∈ r.assignees, ∀ c ∈ a.data, safeChar c = true) :
    accountMatchRow login r = true ↔
      (r.author = login ∨
        ∃ a ∈ r.assignees, a.data.map asciiLower = login.data.map asciiLower) := by
  unfold accountMatchRow
  rw [Bool.or_eq_true]
  apply or_congr
  · exact beq_iff_eq
  · have hne' : login.data ≠ [] := by
      intro h
      exact hne (string_eq_of_data_eq (by rw [h]))
    have hdata : ∀ a ∈ r.assignees.map String.data, ∀ c ∈ a, safeChar c = true := by
      intro a ha
      obtain ⟨s, hs, rfl⟩ := List.mem_map.mp ha
      exact hras s hs
    rw [likeMatch_account_iff login.data (r.assignees.map String.data) hl hne' hdata]
    constructor
    · rintro ⟨a', ha', heq⟩
      obtain ⟨a, ha, rfl⟩ := List.mem_map.mp ha'
      exact ⟨a, ha, heq⟩
    · rintro ⟨a, ha, heq⟩
      exact ⟨a.data, List.mem_map_of_mem _ ha, heq⟩

/-- C8 (amended): the account query returns exactly the cached rows whose
author equals the login exactly (case-sensitively) or whose assignee list
contains the login up to ASCII case — the assignee check is a case-insensitive
SQL LIKE over the stored JSON text, so differently-cased assignees also
match — ordered by PR number descending.  Stated for logins and assignee
names over the GitHub username alphabet (ASCII letters, digits, hyphen),
login nonempty. -/
theorem c8_account_query (cache : List PRRow) (login : String)
    (hl : ∀ c ∈ login.data, safeChar c = true) (hne : login ≠ "")
    (hrows : ∀ r ∈ cache, ∀ a ∈ r.assignees, ∀ c ∈ a.data, safeChar c = true) :
    (∀ p, p ∈ get_cached_prs_by_account cache login ↔
      ∃ r ∈ cache, p = row_to_pr r ∧
        (r.author = login ∨
          ∃ a ∈ r.assignees, a.data.map asciiLower = login.data.map asciiLower)) ∧
    List.Sorted prNumDescRel (get_cached_prs_by_account cache login) := by
  constructor
  · intro p
    unfold get_cached_prs_by_account
    rw [List.mem_map]
    constructor
    · rintro ⟨r, hr, rfl⟩
      have hr' : r ∈ cache.filter (accountMatchRow login) :=
        (List.perm_insertionSort rowNumDescRel _).mem_iff.mp hr
      obtain ⟨hrc, hmatch⟩ := List.mem_filter.mp hr'
      exact ⟨r, hrc, rfl, (accountMatchRow_iff login r hl hne (hrows r hrc)).mp hmatch⟩
    · rintro ⟨r, hrc, rfl, hcond⟩
      refine ⟨r, ?_, rfl⟩
      apply (List.perm_insertionSort rowNumDescRel _).mem_iff.mpr
      exact List.mem_filter.mpr
        ⟨hrc, (accountMatchRow_iff login r hl hne (hrows r hrc)).mpr hcond⟩
  · unfold get_cached_prs_by_account
    exact List.Pairwise.map row_to_pr (fun a b hab => hab)
      (List.sorted_insertionSort rowNumDescRel _)

theorem c8_account_query_witness :
    row_to_pr rowUpperAssignee ∈ get_cached_prs_by_account [rowUpperAssignee] "bob" := by
  have h := (c8_account_query [rowUpperAssignee] "bob" (by decide) (by decide)
    (by decide)).1 (row_to_pr rowUpperAssignee)
  exact h.mpr ⟨rowUpperAssignee, by decide, rfl, Or.inr ⟨"Bob", by decide, by decide⟩⟩

/-- C8 counterexample: the cached row authored by "alice" with assignee "Bob"
is returned by the account query for login "bob", although its author is not
"bob" and "bob" is not (case-sensitively) among its assignees — the SQL LIKE
matches the stored assignee case-insensitively. -/
theorem c8_account_query_counterexample :
    get_cached_prs_by_account [rowUpperAssignee] "bob" = [row_to_pr rowUpperAssignee] ∧
    rowUpperAssignee.author ≠ "bob" ∧ "bob" ∉ rowUpperAssignee.assignees := by
  have hlike : likeMatch (likePatternChars ("bob".data))
      (jsonDumpChars (rowUpperAssignee.assignees.map String.data)) = true := by
    rw [likeMatch_account_iff _ _ (by decide) (by decide) (by decide)]
    exact ⟨"Bob".data, by decide, by decide⟩
  have hmatch : accountMatchRow "bob" rowUpperAssignee = true := by
    unfold accountMatchRow
    rw [hlike, Bool.or_true]
  refine ⟨?_, by decide, by decide⟩
  unfold get_cached_prs_by_account
  rw [List.filter_cons_of_pos hmatch]
  rfl

/-- C10 counterexample: supplying the empty string as the repository scope
does not restrict the deletion to the (empty-named) repository — the row of
repository "o/r" authored by the account is deleted as well, because Python's
`if repo_name:` treats the empty string like None. -/
theorem c10_delete_by_account_counterexample :
    delete_prs_by_account [rowA] "alice" (some "") = [] ∧ rowA.repo ≠ "" := by
  constructor <;> decide

end PRTrack
